import Mathlib

/-!
Verification of `scripts/dev/extract-supabase-key.py`.

The script is sequential, I/O-bound glue code; its pure core (string
validation, the environment-file rewrite) is embedded as executable Lean
functions over `List Char` (one Python string character per list entry),
and its effectful parts (backup creation, exit-code dispatch) as explicit
state passing.
-/

set_option maxHeartbeats 1000000
set_option maxRecDepth 8000
set_option linter.unnecessarySeqFocus false
set_option linter.unreachableTactic false
set_option linter.unusedTactic false
set_option linter.unusedVariables false

namespace ExtractKey

/-- The fixed 3-character JWT literal of `api_key.startswith('eyJ')` (line 46). -/
def eyJ : List Char := ['e', 'y', 'J']

/-- Python `s.split(sep)` for a one-character separator `sep`:
`"".split('.') == ['']`, every separator character starts a new part,
so the number of parts is the number of separators plus one. -/
def splitOnChar (sep : Char) : List Char → List (List Char)
  | [] => [[]]
  | c :: cs =>
    if c = sep then [] :: splitOnChar sep cs
    else
      match splitOnChar sep cs with
      | [] => [[c]]
      | p :: ps => (c :: p) :: ps

/-- `validate_api_key` (lines 41-59).  The five ordered, short-circuiting
checks of the Python function, with the exact reason strings. -/
def validate_api_key (s : List Char) : Bool × String :=
  if s = [] then (false, "API key is empty")
  else if eyJ.isPrefixOf s = false then (false, "JWT tokens should start with 'eyJ'")
  else if '.' ∉ s then (false, "JWT tokens should contain dots")
  else if (splitOnChar '.' s).length ≠ 3 then
    (false, "JWT tokens should have exactly 3 parts separated by dots")
  else if s.length < 100 then (false, "API key seems too short")
  else (true, "Valid")

/-- A string without the separator splits into exactly one part. -/
theorem splitOnChar_of_not_mem {sep : Char} {l : List Char} (h : sep ∉ l) :
    splitOnChar sep l = [l] := by
  induction l with
  | nil => rfl
  | cons c cs ih =>
    simp only [List.mem_cons, not_or] at h
    simp only [splitOnChar, if_neg (Ne.symm h.1), ih h.2]

/-- Splitting always yields at least one part. -/
theorem splitOnChar_ne_nil (sep : Char) (l : List Char) :
    splitOnChar sep l ≠ [] := by
  cases l with
  | nil => simp [splitOnChar]
  | cons c cs =>
    simp only [splitOnChar]
    split
    · simp
    · split
      · simp
      · simp

/-- Three dot-separated parts force at least one dot in the string. -/
theorem dot_mem_of_three_parts {l : List Char}
    (h : (splitOnChar '.' l).length = 3) : '.' ∈ l := by
  by_contra hn
  rw [splitOnChar_of_not_mem hn] at h
  simp at h

/-- A string with the `eyJ` start is nonempty. -/
theorem ne_nil_of_eyJ {l : List Char} (h : eyJ.isPrefixOf l = true) : l ≠ [] := by
  cases l with
  | nil => simp [eyJ, List.isPrefixOf] at h
  | cons c cs => simp

/-- Shared shape lemma: the three structural conditions imply full validity. -/
theorem validate_of_shape {s : List Char} (h1 : eyJ.isPrefixOf s = true)
    (h2 : (splitOnChar '.' s).length = 3) (h3 : 100 ≤ s.length) :
    validate_api_key s = (true, "Valid") := by
  have hne : s ≠ [] := ne_nil_of_eyJ h1
  have hdot : '.' ∈ s := dot_mem_of_three_parts h2
  unfold validate_api_key
  rw [if_neg hne, if_neg (by simp [h1]), if_neg (by simp [hdot]),
    if_neg (by simp [h2]), if_neg (by omega)]

/-- A key the validator accepts is reported with reason `"Valid"`. -/
theorem validate_true_eq {s : List Char} (h : (validate_api_key s).1 = true) :
    validate_api_key s = (true, "Valid") := by
  unfold validate_api_key at h ⊢
  split_ifs at h ⊢ <;> simp_all

/-- C1: `validate_api_key` returns `true` iff the candidate is nonempty,
starts with `eyJ`, contains a dot, splits on `'.'` into exactly 3 parts and
has length at least 100; and an accepted key gets the reason `"Valid"`. -/
theorem validate_iff_shape (s : List Char) :
    ((validate_api_key s).1 = true ↔
      (s ≠ [] ∧ eyJ.isPrefixOf s = true ∧ '.' ∈ s ∧
        (splitOnChar '.' s).length = 3 ∧ 100 ≤ s.length)) ∧
    ((validate_api_key s).1 = true → (validate_api_key s).2 = "Valid") := by
  constructor
  · constructor
    · intro h
      unfold validate_api_key at h
      split_ifs at h with h1 h2 h3 h4 h5 <;>
        first
          | exact ⟨h1, by simpa using h2, by simpa using h3, by simpa using h4, by omega⟩
          | simp at h
    · rintro ⟨h1, h2, h3, h4, h5⟩
      rw [validate_of_shape h2 h4 h5]
  · intro h
    rw [validate_true_eq h]

/-- Demonstration key: starts with `eyJ`, 125 characters, 3 dot-parts. -/
def demoKey : List Char :=
  eyJ ++ List.replicate 60 'a' ++ '.' :: List.replicate 30 'b' ++ '.' :: List.replicate 30 'c'

/-- Witness for C1 at the concrete 125-character key. -/
theorem validate_iff_shape_witness :
    ((validate_api_key demoKey).1 = true ↔
      (demoKey ≠ [] ∧ eyJ.isPrefixOf demoKey = true ∧ '.' ∈ demoKey ∧
        (splitOnChar '.' demoKey).length = 3 ∧ 100 ≤ demoKey.length)) ∧
    ((validate_api_key demoKey).1 = true → (validate_api_key demoKey).2 = "Valid") :=
  validate_iff_shape demoKey

/-- The input refuting C2 as stated: it starts with `eyJ` and its
dot-part count is 1 ≠ 3, but it contains no dot at all. -/
def noDotInput : List Char := ['e', 'y', 'J']

/-- C2 counterexample: on a dot-free string that passes the `eyJ` check,
`validate_api_key` reports the "should contain dots" reason, not the
"exactly 3 parts" reason the claim demands for every part count ≠ 3. -/
theorem validate_noDot_reason_cex :
    eyJ.isPrefixOf noDotInput = true ∧
    (splitOnChar '.' noDotInput).length ≠ 3 ∧
    validate_api_key noDotInput = (false, "JWT tokens should contain dots") ∧
    (validate_api_key noDotInput).2 ≠
      "JWT tokens should have exactly 3 parts separated by dots" := by
  decide

/-- C2 amended: for strings that pass the `eyJ` check and contain at least
one dot, a dot-part count ≠ 3 yields the "exactly 3 parts" reason; dot-free
strings fail earlier with the "should contain dots" reason. -/
theorem validate_three_parts_reason (s : List Char)
    (h1 : eyJ.isPrefixOf s = true) (h2 : '.' ∈ s)
    (h3 : (splitOnChar '.' s).length ≠ 3) :
    validate_api_key s =
      (false, "JWT tokens should have exactly 3 parts separated by dots") := by
  unfold validate_api_key
  rw [if_neg (ne_nil_of_eyJ h1), if_neg (by simp [h1]), if_neg (by simp [h2]),
    if_pos h3]

/-- Witness for the amended C2 at `"eyJ.x"` (2 parts). -/
theorem validate_three_parts_reason_witness :
    validate_api_key ['e', 'y', 'J', '.', 'x'] =
      (false, "JWT tokens should have exactly 3 parts separated by dots") :=
  validate_three_parts_reason ['e', 'y', 'J', '.', 'x'] (by decide) (by decide)
    (by decide)

/-- C10: validation imposes no character-set restriction beyond prefix,
part count and length: any string with the `eyJ` start, exactly 3 dot-parts
and length ≥ 100 is accepted, whatever characters it contains. -/
theorem validate_no_charset_restriction (s : List Char)
    (h1 : eyJ.isPrefixOf s = true) (h2 : (splitOnChar '.' s).length = 3)
    (h3 : 100 ≤ s.length) :
    validate_api_key s = (true, "Valid") :=
  validate_of_shape h1 h2 h3

/-- Key containing a double quote, a space, a newline and a backslash. -/
def wildKey : List Char :=
  ('e' :: 'y' :: 'J' :: '"' :: ' ' :: '\n' :: '\\' :: List.replicate 90 'a') ++
    ['.', 'b', '.', 'c']

/-- Witness for C10: the 101-character key with a quote, whitespace, a
newline and a backslash is accepted. -/
theorem validate_no_charset_restriction_witness :
    validate_api_key wildKey = (true, "Valid") :=
  validate_no_charset_restriction wildKey (by decide) (by decide) (by decide)

/-! ## The environment-file update (`update_env_file`, lines 61-79)

The Python code runs `re.sub(r'NEXT_PUBLIC_SUPABASE_ANON_KEY=.*', repl, content)`
when `re.search` finds the pattern, else appends after `content.rstrip()`.
The pattern is the fixed literal followed by `.*`, which matches greedily up
to (excluding) the next newline; `re.sub` rewrites every non-overlapping
match, scanning left to right and resuming right after each match.  Since
the literal contains no newline, skipping to the end of the line starting
right after the first matched character reaches the same position as first
skipping the rest of the literal, so the scan is a two-mode automaton over
the characters.  The replacement text is spliced literally, which matches
Python for keys free of backslashes (Python additionally expands
replacement-template escapes such as `\g<0>`); theorems touching the
substitution branch therefore carry a no-backslash hypothesis. -/

/-- The fixed pattern literal `NEXT_PUBLIC_SUPABASE_ANON_KEY=` (line 66). -/
def KEYEQ : List Char := ("NEXT_PUBLIC_SUPABASE_ANON_KEY=").data

/-- The replacement `NEXT_PUBLIC_SUPABASE_ANON_KEY="<new key>"` (line 67). -/
def ANON_REPL (key : List Char) : List Char := KEYEQ ++ '"' :: (key ++ ['"'])

/-- `re.search(pattern, content)` truthiness: since `.*` may match the empty
string, the pattern occurs iff the literal `KEYEQ` occurs somewhere. -/
def searchKey : List Char → Bool
  | [] => false
  | c :: cs => KEYEQ.isPrefixOf (c :: cs) || searchKey cs

/-- The `re.sub` scan.  Mode `false`: looking for a match; at a match, emit
the replacement and switch to mode `true`.  Mode `true`: inside the matched
region, drop characters up to (excluding) the next newline, then resume
scanning. -/
def subAux (repl : List Char) : Bool → List Char → List Char
  | _, [] => []
  | true, c :: cs => if c = '\n' then c :: subAux repl false cs else subAux repl true cs
  | false, c :: cs =>
    if KEYEQ.isPrefixOf (c :: cs) then repl ++ subAux repl true cs
    else c :: subAux repl false cs

/-- Python `str.isspace` on the ASCII whitespace characters stripped by
`str.rstrip()` (Python also strips the rarer non-ASCII Unicode spaces). -/
def pyIsSpace (c : Char) : Bool :=
  c == ' ' || c == '\t' || c == '\n' || c == '\r' || c == '\x0b' || c == '\x0c'

/-- Python `content.rstrip()` (line 75). -/
def rstrip (l : List Char) : List Char := (l.reverse.dropWhile pyIsSpace).reverse

/-- `update_env_file` (lines 61-79) as a pure function from the old file
content and the new key to the new file content. -/
def update_env_file (key content : List Char) : List Char :=
  if searchKey content then subAux (ANON_REPL key) false content
  else rstrip content ++ '\n' :: (ANON_REPL key ++ ['\n'])

/-- The lines of a file content, Python-style split on `'\n'`. -/
def linesOf (l : List Char) : List (List Char) := splitOnChar '\n' l

/-- Joining parts back with a separator; inverse of `splitOnChar`. -/
def joinWith (sep : Char) : List (List Char) → List Char
  | [] => []
  | [p] => p
  | p :: q :: ps => p ++ sep :: joinWith sep (q :: ps)

/-- A line assigning the target variable: it starts with
`NEXT_PUBLIC_SUPABASE_ANON_KEY=`. -/
def assigns (l : List Char) : Bool := KEYEQ.isPrefixOf l

/-! ## Backup stage (`create_backup`, lines 30-39)

File-system effects are modelled by an explicit state: the environment file
(present with a content, or absent) plus the backup files, a map from file
name to content.  `sys.exit(1)` is an `Except.error 1`. -/

/-- The backup file name `.env.local.backup.<unix timestamp>` produced by
`ENV_FILE.with_suffix(f".local.backup.{int(time.time())}")` (line 36). -/
def backupName (t : Nat) : List Char := (".env.local.backup.").data ++ (Nat.repr t).data

/-- The file-system state seen by the script. -/
structure FsState where
  envFile : Option (List Char)
  backups : List Char → Option (List Char)

/-- `create_backup` (lines 30-39) at Unix time `t`: exit 1 when `.env.local`
is missing, otherwise write its full content to the timestamped backup file
and return the backup path. -/
def create_backup (t : Nat) (s : FsState) : Except Nat (FsState × List Char) :=
  match s.envFile with
  | none => Except.error 1
  | some c =>
    Except.ok
      ({ envFile := s.envFile,
         backups := fun n => if n = backupName t then some c else s.backups n },
       backupName t)

/-! ## Extraction paths and orchestration (lines 81-244) -/

/-- Python `text.strip()`. -/
def pyStrip (l : List Char) : List Char := rstrip (l.dropWhile pyIsSpace)

/-- The acceptance test of the Selenium path (lines 130-133): stripped
element text starting with `eyJ`, longer than 100 characters, splitting
into exactly 3 dot-separated parts. -/
def seleniumAccepts (s : List Char) : Bool :=
  eyJ.isPrefixOf s && decide (100 < s.length) && ((splitOnChar '.' s).length == 3)

/-- `try_selenium_extraction` (lines 124-146) restricted to its key
selection: the first stripped element text (in selector, then DOM order)
passing the acceptance test, if any. -/
def selenium_result (texts : List (List Char)) : Option (List Char) :=
  (texts.map pyStrip).find? seleniumAccepts

/-- `manual_extraction` (lines 186-194): the loop returns the first stripped
operator input that passes `validate_api_key`. -/
def manual_result (inputs : List (List Char)) : Option (List Char) :=
  (inputs.map pyStrip).find? (fun s => (validate_api_key s).1)

/-- Outcome of `main()` (lines 196-230): normal return, or `sys.exit(code)`. -/
inductive MainOutcome
  | ok
  | exits (code : Nat)
deriving DecidableEq

/-- How the `main()` call inside the `__main__` dispatch ends: it completes
(returning or calling `sys.exit`), or a `KeyboardInterrupt` or another
unexpected exception escapes it. -/
inductive RunEvent
  | completes
  | interrupted
  | raised
deriving DecidableEq

/-- The exit path of `main()` (lines 196-230) given the backup-stage state
and the key the extraction stage produced: `create_backup` exits 1 on a
missing environment file (line 34), then the final validation exits 1 on an
invalid key (lines 215-218); otherwise `main` returns normally. -/
def main_outcome (t : Nat) (s : FsState) (key : List Char) : MainOutcome :=
  match create_backup t s with
  | Except.error c => MainOutcome.exits c
  | Except.ok _ =>
    if (validate_api_key key).1 then MainOutcome.ok else MainOutcome.exits 1

/-- The `--help`/`-h` test of line 233: `len(sys.argv) > 1 and sys.argv[1]
in ["--help", "-h"]`. -/
def helpRequested (argv : List String) : Bool :=
  argv[1]? == some "--help" || argv[1]? == some "-h"

/-- The `__main__` dispatch (lines 232-244): usage text and exit 0 on
`--help`/`-h`; else run `main`, turning `KeyboardInterrupt` into exit 0 and
any other escaping exception into exit 1 (`sys.exit(c)` raises `SystemExit`,
which `except Exception` does not catch, so code `c` propagates). -/
def program_exit (argv : List String) (ev : RunEvent) (t : Nat) (s : FsState)
    (key : List Char) : Nat :=
  if helpRequested argv then 0
  else
    match ev with
    | RunEvent.interrupted => 0
    | RunEvent.raised => 1
    | RunEvent.completes =>
      match main_outcome t s key with
      | MainOutcome.ok => 0
      | MainOutcome.exits c => c

/-! ## Lemmas about the prefix test -/

/-- A successful `isPrefixOf` test is an append decomposition. -/
theorem pfxIff (p : List Char) : ∀ l, p.isPrefixOf l = true ↔ ∃ t, l = p ++ t := by
  induction p with
  | nil => intro l; simp [List.isPrefixOf]
  | cons x xs ih =>
    intro l
    cases l with
    | nil => simp [List.isPrefixOf]
    | cons y ys =>
      simp only [List.isPrefixOf, Bool.and_eq_true, beq_iff_eq, List.cons_append]
      constructor
      · rintro ⟨rfl, h⟩
        obtain ⟨t, rfl⟩ := (ih ys).mp h
        exact ⟨t, rfl⟩
      · rintro ⟨t, ht⟩
        injection ht with h1 h2
        exact ⟨h1.symm, (ih ys).mpr ⟨t, h2⟩⟩

/-- A list is a prefix of itself followed by anything. -/
theorem pfxSelfAppend (p t : List Char) : p.isPrefixOf (p ++ t) = true :=
  (pfxIff p (p ++ t)).mpr ⟨t, rfl⟩

/-- A prefix survives appending on the right. -/
theorem pfxExtend {p x : List Char} (h : p.isPrefixOf x = true) (y : List Char) :
    p.isPrefixOf (x ++ y) = true := by
  obtain ⟨t, rfl⟩ := (pfxIff p x).mp h
  rw [List.append_assoc]
  exact pfxSelfAppend p (t ++ y)

/-- The prefix test only inspects the first `p.length` characters: past a
long enough front, the continuation is irrelevant. -/
theorem pfxLong {p : List Char} : ∀ {y : List Char}, p.length ≤ y.length →
    ∀ u, p.isPrefixOf (y ++ u) = p.isPrefixOf y := by
  induction p with
  | nil => intro y _ u; simp [List.isPrefixOf]
  | cons x xs ih =>
    intro y hy u
    cases y with
    | nil => simp at hy
    | cons c ys =>
      simp only [List.cons_append, List.isPrefixOf, List.append_eq]
      rw [ih (by simpa using hy) u]

/-- A newline-free pattern cannot match across a newline boundary. -/
theorem pfxNewline {p : List Char} (hp : '\n' ∉ p) :
    ∀ {a : List Char}, '\n' ∉ a → ∀ b, p.isPrefixOf (a ++ '\n' :: b) = p.isPrefixOf a := by
  induction p with
  | nil => intro a _ b; simp [List.isPrefixOf]
  | cons x xs ih =>
    intro a ha b
    have hx : x ≠ '\n' := fun he => hp (he ▸ List.mem_cons_self x xs)
    have hxs : '\n' ∉ xs := fun hm => hp (List.mem_cons_of_mem x hm)
    cases a with
    | nil =>
      simp only [List.nil_append, List.isPrefixOf]
      simp [hx]
    | cons c as =>
      have has : '\n' ∉ as := fun hm => ha (List.mem_cons_of_mem c hm)
      simp only [List.cons_append, List.isPrefixOf, List.append_eq]
      rw [ih hxs has b]

/-! ## Lemmas about the `re.sub` scan -/

/-- The pattern literal is not empty and contains no newline. -/
theorem KEYEQ_props : KEYEQ ≠ [] ∧ '\n' ∉ KEYEQ := by decide

/-- Skipping mode consumes a newline-free list entirely. -/
theorem subAux_skip_nl_free (repl : List Char) :
    ∀ {a : List Char}, '\n' ∉ a → subAux repl true a = [] := by
  intro a
  induction a with
  | nil => intro _; rfl
  | cons c cs ih =>
    intro h
    have hc : c ≠ '\n' := fun he => h (he ▸ List.mem_cons_self c cs)
    have hcs : '\n' ∉ cs := fun hm => h (List.mem_cons_of_mem c hm)
    simp only [subAux, if_neg hc]
    exact ih hcs

/-- Skipping mode ignores a leading newline-free chunk. -/
theorem subAux_skip_chunk (repl : List Char) :
    ∀ {a : List Char}, '\n' ∉ a → ∀ x, subAux repl true (a ++ x) = subAux repl true x := by
  intro a
  induction a with
  | nil => intro _ x; rfl
  | cons c cs ih =>
    intro h x
    have hc : c ≠ '\n' := fun he => h (he ▸ List.mem_cons_self c cs)
    have hcs : '\n' ∉ cs := fun hm => h (List.mem_cons_of_mem c hm)
    simp only [List.cons_append, subAux, if_neg hc]
    exact ih hcs x

/-- Skipping mode stops at the first newline and resumes scanning. -/
theorem subAux_skip_append (repl : List Char) :
    ∀ {a : List Char}, '\n' ∉ a → ∀ b,
      subAux repl true (a ++ '\n' :: b) = '\n' :: subAux repl false b := by
  intro a ha b
  rw [subAux_skip_chunk repl ha ('\n' :: b)]
  simp [subAux]

/-- A match at the head of `KEYEQ ++ t`: emit the replacement and skip. -/
theorem subAux_keyeq_append (repl t : List Char) :
    subAux repl false (KEYEQ ++ t) = repl ++ subAux repl true t := by
  obtain ⟨k, ks, hK⟩ : ∃ k ks, KEYEQ = k :: ks := by
    cases h : KEYEQ with
    | nil => exact absurd h KEYEQ_props.1
    | cons k ks => exact ⟨k, ks, rfl⟩
  have hks : '\n' ∉ ks := fun hm => KEYEQ_props.2 (hK ▸ List.mem_cons_of_mem k hm)
  have hpfx : KEYEQ.isPrefixOf (k :: (ks ++ t)) = true := by
    rw [← List.cons_append, ← hK]
    exact pfxSelfAppend KEYEQ t
  conv_lhs => rw [hK, List.cons_append]
  simp only [subAux, if_pos hpfx]
  rw [subAux_skip_chunk repl hks t]

/-- The scan leaves a pattern-free text unchanged. -/
theorem subAux_id_of_not_search (repl : List Char) :
    ∀ {l : List Char}, searchKey l = false → subAux repl false l = l := by
  intro l
  induction l with
  | nil => intro _; rfl
  | cons c cs ih =>
    intro h
    simp only [searchKey, Bool.or_eq_false_iff] at h
    have h1 : ¬ (KEYEQ.isPrefixOf (c :: cs) = true) := by simp [h.1]
    simp only [subAux, if_neg h1, ih h.2]

/-- One-step unfolding of the search. -/
theorem searchKey_cons (c : Char) (cs : List Char) :
    searchKey (c :: cs) = (KEYEQ.isPrefixOf (c :: cs) || searchKey cs) := rfl

/-- A pattern occurrence on the right survives prepending. -/
theorem searchKey_append_right (x : List Char) {y : List Char}
    (h : searchKey y = true) : searchKey (x ++ y) = true := by
  induction x with
  | nil => simpa using h
  | cons c cs ih =>
    simp only [List.cons_append, searchKey, List.append_eq, ih, Bool.or_true]

/-- A pattern occurrence on the left survives appending. -/
theorem searchKey_append_left : ∀ {x : List Char}, searchKey x = true →
    ∀ y, searchKey (x ++ y) = true := by
  intro x
  induction x with
  | nil => intro h; simp [searchKey] at h
  | cons c cs ih =>
    intro h y
    simp only [searchKey, Bool.or_eq_true] at h
    rcases h with h | h
    · have h2 : KEYEQ.isPrefixOf ((c :: cs) ++ y) = true := pfxExtend h y
      rw [List.cons_append] at h2
      simp only [List.cons_append, searchKey, List.append_eq, h2, Bool.true_or]
    · simp only [List.cons_append, searchKey, List.append_eq, ih h y, Bool.or_true]

/-- `KEYEQ ++ t` always contains the pattern. -/
theorem searchKey_keyeq (t : List Char) : searchKey (KEYEQ ++ t) = true := by
  obtain ⟨k, ks, hK⟩ : ∃ k ks, KEYEQ = k :: ks := by
    cases h : KEYEQ with
    | nil => exact absurd h KEYEQ_props.1
    | cons k ks => exact ⟨k, ks, rfl⟩
  have hpfx : KEYEQ.isPrefixOf (k :: (ks ++ t)) = true := by
    rw [← List.cons_append, ← hK]
    exact pfxSelfAppend KEYEQ t
  conv_lhs => rw [hK, List.cons_append]
  simp only [searchKey]
  simp [hpfx]

/-- A line that assigns the target variable contains the pattern. -/
theorem searchKey_of_assigns {l : List Char} (h : assigns l = true) :
    searchKey l = true := by
  cases l with
  | nil => exact absurd h (by decide)
  | cons c cs => simp only [searchKey]; simp [assigns] at h; simp [h]

/-- The scan preserves having a pattern occurrence (the replacement itself
starts with the pattern literal). -/
theorem searchKey_subAux (repl : List Char) (hr : searchKey repl = true) :
    ∀ {l : List Char}, searchKey l = true → searchKey (subAux repl false l) = true := by
  intro l
  induction l with
  | nil => intro h; simp [searchKey] at h
  | cons c cs ih =>
    intro h
    by_cases hm : KEYEQ.isPrefixOf (c :: cs) = true
    · simp only [subAux, if_pos hm]
      exact searchKey_append_left hr _
    · simp only [subAux, if_neg hm]
      simp only [searchKey, Bool.or_eq_true] at h
      rcases h with h | h
      · exact absurd h hm
      · simp only [searchKey, ih h, Bool.or_true]

/-- The scan changes neither presence nor absence of the pattern. -/
theorem searchKey_subAux_eq (repl : List Char) (hr : searchKey repl = true)
    (l : List Char) : searchKey (subAux repl false l) = searchKey l := by
  cases hl : searchKey l with
  | false => rw [subAux_id_of_not_search repl hl, hl]
  | true => rw [searchKey_subAux repl hr hl]

/-- Output of the scan on newline-free input is newline-free (for a
newline-free replacement). -/
theorem subAux_nl_free (repl : List Char) (hrnl : '\n' ∉ repl) :
    ∀ {l : List Char}, '\n' ∉ l → '\n' ∉ subAux repl false l := by
  intro l
  induction l with
  | nil => intro _; simp [subAux]
  | cons c cs ih =>
    intro h
    have hc : c ≠ '\n' := fun he => h (he ▸ List.mem_cons_self c cs)
    have hcs : '\n' ∉ cs := fun hm => h (List.mem_cons_of_mem c hm)
    by_cases hm : KEYEQ.isPrefixOf (c :: cs) = true
    · simp only [subAux, if_pos hm]
      rw [subAux_skip_nl_free repl hcs]
      simpa using hrnl
    · simp only [subAux, if_neg hm]
      intro hmem
      rcases List.mem_cons.mp hmem with he | hm2
      · exact hc he.symm
      · exact ih hcs hm2

/-! ## Line decomposition of the scan -/

/-- The scan processes a newline boundary independently on both sides. -/
theorem subAux_split (repl : List Char) :
    ∀ {a : List Char}, '\n' ∉ a → ∀ b,
      subAux repl false (a ++ '\n' :: b) =
        subAux repl false a ++ '\n' :: subAux repl false b := by
  intro a
  induction a with
  | nil =>
    intro _ b
    have h1 : KEYEQ.isPrefixOf ('\n' :: b) = false := by
      have h := @pfxNewline KEYEQ KEYEQ_props.2 [] (by simp) b
      simp only [List.nil_append] at h
      rw [h]
      decide
    simp only [List.nil_append, subAux, if_neg (by simp [h1] :
      ¬ (KEYEQ.isPrefixOf ('\n' :: b) = true))]
  | cons c as ih =>
    intro h b
    have has : '\n' ∉ as := fun hm => h (List.mem_cons_of_mem c hm)
    have hcond := pfxNewline KEYEQ_props.2 h b
    rw [List.cons_append] at hcond
    rw [List.cons_append]
    by_cases hm : KEYEQ.isPrefixOf (c :: as) = true
    · have hm2 : KEYEQ.isPrefixOf (c :: (as ++ '\n' :: b)) = true := by rw [hcond]; exact hm
      simp only [subAux, if_pos hm2, if_pos hm]
      rw [subAux_skip_append repl has b, subAux_skip_nl_free repl has]
      simp
    · have hm2 : ¬ (KEYEQ.isPrefixOf (c :: (as ++ '\n' :: b)) = true) := by
        rw [hcond]; exact hm
      simp only [subAux, if_neg hm2, if_neg hm]
      rw [ih has b]
      simp

/-- The pattern occurs in `a ++ '\n' :: b` iff it occurs in `a` or in `b`. -/
theorem searchKey_split : ∀ {a : List Char}, '\n' ∉ a → ∀ b,
    searchKey (a ++ '\n' :: b) = (searchKey a || searchKey b) := by
  intro a
  induction a with
  | nil =>
    intro _ b
    have h1 : KEYEQ.isPrefixOf ('\n' :: b) = false := by
      have h := @pfxNewline KEYEQ KEYEQ_props.2 [] (by simp) b
      simp only [List.nil_append] at h
      rw [h]
      decide
    simp [searchKey, h1]
  | cons c as ih =>
    intro h b
    have has : '\n' ∉ as := fun hm => h (List.mem_cons_of_mem c hm)
    have hcond := pfxNewline KEYEQ_props.2 h b
    rw [List.cons_append] at hcond
    rw [List.cons_append]
    simp only [searchKey, List.append_eq]
    rw [ih has b, hcond, Bool.or_assoc]

/-- Any list containing a newline splits at its first newline. -/
theorem exists_newline_split : ∀ {l : List Char}, '\n' ∈ l →
    ∃ a b, l = a ++ '\n' :: b ∧ '\n' ∉ a := by
  intro l
  induction l with
  | nil => intro h; simp at h
  | cons c cs ih =>
    intro h
    by_cases hc : c = '\n'
    · subst hc
      exact ⟨[], cs, rfl, by simp⟩
    · have h2 : '\n' ∈ cs := by
        rcases List.mem_cons.mp h with he | hm
        · exact absurd he.symm hc
        · exact hm
      obtain ⟨a, b, rfl, ha⟩ := ih h2
      refine ⟨c :: a, b, rfl, ?_⟩
      intro hm
      rcases List.mem_cons.mp hm with he | hm2
      · exact hc he.symm
      · exact ha hm2

/-- Induction on file contents by their leading line (fueled form). -/
theorem newlineRecAux (P : List Char → Prop) (h1 : ∀ l, '\n' ∉ l → P l)
    (h2 : ∀ a b, '\n' ∉ a → P b → P (a ++ '\n' :: b)) :
    ∀ n, ∀ l : List Char, l.length ≤ n → P l := by
  intro n
  induction n with
  | zero =>
    intro l hl
    have h0 : l = [] := List.length_eq_zero.mp (Nat.le_zero.mp hl)
    subst h0
    exact h1 [] (by simp)
  | succ n ih =>
    intro l hl
    by_cases hmem : '\n' ∈ l
    · obtain ⟨a, b, rfl, ha⟩ := exists_newline_split hmem
      refine h2 a b ha (ih b ?_)
      rw [List.length_append, List.length_cons] at hl
      omega
    · exact h1 l hmem

/-- Induction on file contents by their leading line. -/
theorem newlineRec (P : List Char → Prop) (h1 : ∀ l, '\n' ∉ l → P l)
    (h2 : ∀ a b, '\n' ∉ a → P b → P (a ++ '\n' :: b)) (l : List Char) : P l :=
  newlineRecAux P h1 h2 l.length l le_rfl

/-- Unfolding: a leading separator starts an empty part. -/
theorem splitOnChar_cons_sep (sep : Char) (cs : List Char) :
    splitOnChar sep (sep :: cs) = [] :: splitOnChar sep cs := by
  simp [splitOnChar]

/-- The split of any list is some nonempty list of parts. -/
theorem splitOnChar_exists_cons (sep : Char) (l : List Char) :
    ∃ p ps, splitOnChar sep l = p :: ps := by
  cases h : splitOnChar sep l with
  | nil => exact absurd h (splitOnChar_ne_nil sep l)
  | cons p ps => exact ⟨p, ps, rfl⟩

/-- Unfolding: a non-separator head joins the first part. -/
theorem splitOnChar_cons_ne (sep : Char) {c : Char} (hc : c ≠ sep) (cs : List Char)
    {p : List Char} {ps : List (List Char)} (hsp : splitOnChar sep cs = p :: ps) :
    splitOnChar sep (c :: cs) = (c :: p) :: ps := by
  simp only [splitOnChar, if_neg hc, hsp]

/-- A separator at the junction splits an append cleanly. -/
theorem splitOnChar_append (sep : Char) :
    ∀ x y, splitOnChar sep (x ++ sep :: y) =
      splitOnChar sep x ++ splitOnChar sep y := by
  intro x
  induction x with
  | nil =>
    intro y
    rw [List.nil_append, splitOnChar_cons_sep sep y]
    rfl
  | cons c x' ih =>
    intro y
    rw [List.cons_append]
    by_cases hc : c = sep
    · rw [hc, splitOnChar_cons_sep sep (x' ++ sep :: y), splitOnChar_cons_sep sep x',
        ih y]
      rfl
    · obtain ⟨p, ps, hsp⟩ := splitOnChar_exists_cons sep x'
      have hsp2 : splitOnChar sep (x' ++ sep :: y) = p :: (ps ++ splitOnChar sep y) := by
        rw [ih y, hsp]
        rfl
      rw [splitOnChar_cons_ne sep hc (x' ++ sep :: y) hsp2,
        splitOnChar_cons_ne sep hc x' hsp]
      rfl

/-- Joining the split parts restores the original list. -/
theorem joinWith_splitOnChar (sep : Char) :
    ∀ l, joinWith sep (splitOnChar sep l) = l := by
  intro l
  induction l with
  | nil => rfl
  | cons c cs ih =>
    obtain ⟨q, qs, hsp⟩ := splitOnChar_exists_cons sep cs
    by_cases hc : c = sep
    · rw [hc, splitOnChar_cons_sep sep cs, hsp]
      simp only [joinWith, List.nil_append]
      rw [← hsp, ih]
    · rw [splitOnChar_cons_ne sep hc cs hsp]
      rw [hsp] at ih
      cases qs with
      | nil =>
        simp only [joinWith] at ih ⊢
        rw [ih]
      | cons r rs =>
        simp only [joinWith] at ih ⊢
        rw [List.cons_append, ih]

/-- Each part of a split is free of the separator. -/
theorem not_mem_of_mem_splitOnChar (sep : Char) :
    ∀ l p, p ∈ splitOnChar sep l → sep ∉ p := by
  intro l
  induction l with
  | nil =>
    intro p hp
    simp [splitOnChar] at hp
    simp [hp]
  | cons c cs ih =>
    intro p hp
    obtain ⟨q, qs, hsp⟩ := splitOnChar_exists_cons sep cs
    by_cases hc : c = sep
    · rw [hc, splitOnChar_cons_sep sep cs] at hp
      rcases List.mem_cons.mp hp with rfl | hp2
      · simp
      · exact ih p hp2
    · rw [splitOnChar_cons_ne sep hc cs hsp] at hp
      rcases List.mem_cons.mp hp with rfl | hp2
      · intro hm
        rcases List.mem_cons.mp hm with he | hm2
        · exact hc he.symm
        · exact ih q (by rw [hsp]; exact List.mem_cons_self q qs) hm2
      · exact ih p (by rw [hsp]; exact List.mem_cons_of_mem q hp2)

/-- Splitting a join of separator-free parts recovers the parts. -/
theorem splitOnChar_joinWith (sep : Char) :
    ∀ P : List (List Char), P ≠ [] → (∀ p ∈ P, sep ∉ p) →
      splitOnChar sep (joinWith sep P) = P := by
  intro P
  induction P with
  | nil => intro h _; exact absurd rfl h
  | cons p P' ih =>
    intro _ hall
    cases P' with
    | nil =>
      simp only [joinWith]
      exact splitOnChar_of_not_mem (hall p (List.mem_cons_self p []))
    | cons q qs =>
      simp only [joinWith]
      rw [splitOnChar_append sep p (joinWith sep (q :: qs)),
        splitOnChar_of_not_mem (hall p (List.mem_cons_self p (q :: qs))),
        ih (by simp) (fun r hr => hall r (List.mem_cons_of_mem p hr))]
      rfl

/-- A member of the parts occurs contiguously inside the join. -/
theorem joinWith_mem_decomp (sep : Char) :
    ∀ (P : List (List Char)) (p : List Char), p ∈ P →
      ∃ a b, joinWith sep P = a ++ (p ++ b) := by
  intro P
  induction P with
  | nil => intro p hp; simp at hp
  | cons q P' ih =>
    intro p hp
    rcases List.mem_cons.mp hp with rfl | hp2
    · cases P' with
      | nil => exact ⟨[], [], by simp [joinWith]⟩
      | cons r rs => exact ⟨[], sep :: joinWith sep (r :: rs), by simp [joinWith]⟩
    · cases P' with
      | nil => simp at hp2
      | cons r rs =>
        obtain ⟨a, b, hab⟩ := ih p hp2
        refine ⟨q ++ sep :: a, b, ?_⟩
        simp only [joinWith, hab, List.append_assoc, List.cons_append]

/-- A pattern occurrence inside one line is an occurrence in the whole file. -/
theorem searchKey_of_mem_line {x p : List Char} (hp : p ∈ linesOf x)
    (hs : searchKey p = true) : searchKey x = true := by
  obtain ⟨a, b, hab⟩ := joinWith_mem_decomp '\n' (linesOf x) p hp
  have hx : x = a ++ (p ++ b) := by
    conv_lhs => rw [← joinWith_splitOnChar '\n' x]
    exact hab
  rw [hx]
  exact searchKey_append_right a (searchKey_append_left hs b)

/-- The pattern occurs in the file iff it occurs in some line. -/
theorem searchKey_lines (l : List Char) :
    searchKey l = (linesOf l).any searchKey := by
  refine newlineRec (fun m => searchKey m = (linesOf m).any searchKey) ?_ ?_ l
  · intro m hm
    rw [linesOf, splitOnChar_of_not_mem hm]
    simp
  · intro a b ha hb
    simp only [linesOf] at hb ⊢
    rw [searchKey_split ha b, splitOnChar_append '\n' a b, splitOnChar_of_not_mem ha,
      List.singleton_append, List.any_cons, hb]

/-- The scan is the line-wise scan joined back with newlines. -/
theorem subAux_lines (repl l : List Char) :
    subAux repl false l = joinWith '\n' ((linesOf l).map (subAux repl false)) := by
  refine newlineRec
    (fun m => subAux repl false m = joinWith '\n' ((linesOf m).map (subAux repl false)))
    ?_ ?_ l
  · intro m hm
    rw [linesOf, splitOnChar_of_not_mem hm]
    simp [joinWith]
  · intro a b ha hb
    simp only [linesOf] at hb ⊢
    rw [subAux_split repl ha b, splitOnChar_append '\n' a b, splitOnChar_of_not_mem ha]
    cases hm : (splitOnChar '\n' b).map (subAux repl false) with
    | nil => exact absurd (List.map_eq_nil_iff.mp hm) (splitOnChar_ne_nil '\n' b)
    | cons q qs =>
      rw [List.singleton_append, List.map_cons, hm]
      simp only [joinWith]
      rw [hb, hm]

/-- The original content extends its right-stripped form. -/
theorem rstrip_append_eq (l : List Char) : ∃ z, l = rstrip l ++ z := by
  refine ⟨(l.reverse.takeWhile pyIsSpace).reverse, ?_⟩
  show l = (l.reverse.dropWhile pyIsSpace).reverse ++ (l.reverse.takeWhile pyIsSpace).reverse
  rw [← List.reverse_append, List.takeWhile_append_dropWhile, List.reverse_reverse]

/-- On a newline-free line the scan either is the identity, or rewrites the
line at its first pattern occurrence into `pre ++ repl`. -/
theorem subAux_structure (repl : List Char) :
    ∀ {l : List Char}, '\n' ∉ l →
      subAux repl false l = l ∨
      ∃ pre t, l = pre ++ (KEYEQ ++ t) ∧ subAux repl false l = pre ++ repl := by
  intro l
  induction l with
  | nil => intro _; exact Or.inl rfl
  | cons c cs ih =>
    intro h
    have hcs : '\n' ∉ cs := fun hm => h (List.mem_cons_of_mem c hm)
    by_cases hm : KEYEQ.isPrefixOf (c :: cs) = true
    · right
      obtain ⟨t, ht⟩ := (pfxIff KEYEQ (c :: cs)).mp hm
      refine ⟨[], t, by simpa using ht, ?_⟩
      simp only [subAux, if_pos hm]
      rw [subAux_skip_nl_free repl hcs]
      simp
    · rcases ih hcs with he | ⟨pre, t, hl, hs⟩
      · left
        simp only [subAux, if_neg hm, he]
      · right
        refine ⟨c :: pre, t, by rw [List.cons_append, ← hl], ?_⟩
        simp only [subAux, if_neg hm, hs, List.cons_append]

/-- Rewriting a line does not create a pattern match at an earlier position:
the prefix test at any position sees the same window before and after, since
the replacement also starts with the pattern literal. -/
theorem pfx_stable (repl : List Char) {c : Char} {cs : List Char}
    (hnl : '\n' ∉ cs) (hrepl : ∃ t0, repl = KEYEQ ++ t0) :
    KEYEQ.isPrefixOf (c :: subAux repl false cs) = KEYEQ.isPrefixOf (c :: cs) := by
  rcases subAux_structure repl hnl with he | ⟨pre, t, hl, hs⟩
  · rw [he]
  · obtain ⟨t0, rfl⟩ := hrepl
    rw [hs, hl]
    have h1 : c :: (pre ++ (KEYEQ ++ t0)) = (c :: (pre ++ KEYEQ)) ++ t0 := by
      simp [List.append_assoc]
    have h2 : c :: (pre ++ (KEYEQ ++ t)) = (c :: (pre ++ KEYEQ)) ++ t := by
      simp [List.append_assoc]
    rw [h1, h2]
    have h30 : KEYEQ.length ≤ (c :: (pre ++ KEYEQ)).length := by
      simp only [List.length_cons, List.length_append]
      omega
    rw [pfxLong h30 t0, pfxLong h30 t]

/-- The scan is idempotent on a newline-free line, for a newline-free
replacement that itself starts with the pattern literal. -/
theorem subAux_idem_line (repl : List Char) (hrepl : ∃ t0, repl = KEYEQ ++ t0)
    (hrnl : '\n' ∉ repl) :
    ∀ {l : List Char}, '\n' ∉ l →
      subAux repl false (subAux repl false l) = subAux repl false l := by
  intro l
  induction l with
  | nil => intro _; rfl
  | cons c cs ih =>
    intro h
    have hcs : '\n' ∉ cs := fun hm => h (List.mem_cons_of_mem c hm)
    by_cases hm : KEYEQ.isPrefixOf (c :: cs) = true
    · have h1 : subAux repl false (c :: cs) = repl := by
        simp only [subAux, if_pos hm]
        rw [subAux_skip_nl_free repl hcs]
        simp
      rw [h1]
      obtain ⟨t0, ht0⟩ := hrepl
      have ht0nl : '\n' ∉ t0 := fun hmem => hrnl (ht0 ▸ List.mem_append_right KEYEQ hmem)
      rw [ht0, subAux_keyeq_append _ t0, subAux_skip_nl_free _ ht0nl]
      simp
    · have h1 : subAux repl false (c :: cs) = c :: subAux repl false cs := by
        simp only [subAux, if_neg hm]
      rw [h1]
      have h2 : KEYEQ.isPrefixOf (c :: subAux repl false cs) = false := by
        rw [pfx_stable repl hcs hrepl]
        exact (Bool.not_eq_true _).mp hm
      have h3 : ¬ (KEYEQ.isPrefixOf (c :: subAux repl false cs) = true) := by simp [h2]
      simp only [subAux, if_neg h3]
      rw [ih hcs]

/-! ## The replacement text -/

/-- Shape of the replacement: it starts with the pattern literal. -/
theorem anon_repl_shape (key : List Char) :
    ANON_REPL key = KEYEQ ++ ('"' :: (key ++ ['"'])) := rfl

/-- The replacement is newline-free for a newline-free key. -/
theorem anon_repl_nl_free {key : List Char} (hk : '\n' ∉ key) :
    '\n' ∉ ANON_REPL key := by
  intro hm
  rw [anon_repl_shape] at hm
  rcases List.mem_append.mp hm with h | h
  · exact KEYEQ_props.2 h
  · rcases List.mem_cons.mp h with he | h2
    · exact absurd he (by decide)
    · rcases List.mem_append.mp h2 with h3 | h3
      · exact hk h3
      · simp at h3

/-- The replacement contains the pattern. -/
theorem searchKey_anon_repl (key : List Char) : searchKey (ANON_REPL key) = true := by
  rw [anon_repl_shape]
  exact searchKey_keyeq _

/-- The scan maps the replacement line to itself (newline-free key). -/
theorem subAux_anon_repl_self {key : List Char} (hk : '\n' ∉ key) :
    subAux (ANON_REPL key) false (ANON_REPL key) = ANON_REPL key := by
  have hq : '\n' ∉ ('"' :: (key ++ ['"'])) := by
    intro hm
    rcases List.mem_cons.mp hm with he | h2
    · exact absurd he (by decide)
    · rcases List.mem_append.mp h2 with h3 | h3
      · exact hk h3
      · simp at h3
  calc subAux (ANON_REPL key) false (ANON_REPL key)
      = subAux (ANON_REPL key) false (KEYEQ ++ ('"' :: (key ++ ['"']))) := by
        rw [← anon_repl_shape]
    _ = ANON_REPL key ++ subAux (ANON_REPL key) true ('"' :: (key ++ ['"'])) :=
        subAux_keyeq_append _ _
    _ = ANON_REPL key := by rw [subAux_skip_nl_free _ hq]; simp

/-- C6: with a missing environment file `create_backup` exits with status 1
and writes nothing; with an existing one (and a fresh timestamp, the
second-resolution collision the spec leaves undefended) it creates exactly
one new file, named by the timestamp, holding the environment file's full
content, all other files and the environment file itself unchanged. -/
theorem create_backup_spec (t : Nat) (s : FsState) :
    (s.envFile = none → create_backup t s = Except.error 1) ∧
    (∀ c, s.envFile = some c → s.backups (backupName t) = none →
      ∃ s', create_backup t s = Except.ok (s', backupName t) ∧
        s'.envFile = s.envFile ∧
        s'.backups (backupName t) = some c ∧
        (∀ n, n ≠ backupName t → s'.backups n = s.backups n)) := by
  constructor
  · intro h
    simp [create_backup, h]
  · intro c hc _hfresh
    refine ⟨{ envFile := some c,
              backups := fun n => if n = backupName t then some c else s.backups n },
      by simp [create_backup, hc], hc.symm, by simp, fun n hn => by simp [hn]⟩

/-- Witness for C6: a missing file exits 1; a present file `"x"` is copied
to the timestamped backup. -/
theorem create_backup_spec_witness :
    create_backup 7 ⟨none, fun _ => none⟩ = Except.error 1 ∧
    ∃ s', create_backup 7 ⟨some ['x'], fun _ => none⟩ = Except.ok (s', backupName 7) ∧
      s'.envFile = some ['x'] ∧ s'.backups (backupName 7) = some ['x'] ∧
      (∀ n, n ≠ backupName 7 → s'.backups n = none) := by
  refine ⟨(create_backup_spec 7 ⟨none, fun _ => none⟩).1 rfl, ?_⟩
  obtain ⟨s', h1, h2, h3, h4⟩ :=
    (create_backup_spec 7 ⟨some ['x'], fun _ => none⟩).2 ['x'] rfl rfl
  exact ⟨s', h1, h2, h3, h4⟩

/-- C7: exit code 0 on `--help`/`-h` (checked before any work), 0 on an
operator interrupt, 1 on a fatal error: missing environment file, final
validation failure, or any other unhandled exception; 0 on a normal run. -/
theorem program_exit_codes (argv : List String) (ev : RunEvent) (t : Nat)
    (s : FsState) (key : List Char) :
    (helpRequested argv = true → program_exit argv ev t s key = 0) ∧
    (ev = RunEvent.interrupted → helpRequested argv = false →
      program_exit argv ev t s key = 0) ∧
    (ev = RunEvent.raised → helpRequested argv = false →
      program_exit argv ev t s key = 1) ∧
    (ev = RunEvent.completes → helpRequested argv = false → s.envFile = none →
      program_exit argv ev t s key = 1) ∧
    (ev = RunEvent.completes → helpRequested argv = false → s.envFile ≠ none →
      (validate_api_key key).1 = false → program_exit argv ev t s key = 1) ∧
    (ev = RunEvent.completes → helpRequested argv = false → s.envFile ≠ none →
      (validate_api_key key).1 = true → program_exit argv ev t s key = 0) := by
  refine ⟨fun hh => by simp [program_exit, hh], ?_, ?_, ?_, ?_, ?_⟩
  · rintro rfl hh
    simp [program_exit, hh]
  · rintro rfl hh
    simp [program_exit, hh]
  · rintro rfl hh he
    simp [program_exit, hh, main_outcome, create_backup, he]
  · rintro rfl hh he hv
    obtain ⟨c, hc⟩ := Option.ne_none_iff_exists'.mp he
    simp [program_exit, hh, main_outcome, create_backup, hc, hv]
  · rintro rfl hh he hv
    obtain ⟨c, hc⟩ := Option.ne_none_iff_exists'.mp he
    simp [program_exit, hh, main_outcome, create_backup, hc, hv]

/-- Witness for C7 at concrete inputs: help request, interrupt, unexpected
exception, missing environment file, and failing final validation. -/
theorem program_exit_codes_witness :
    program_exit ["prog", "--help"] RunEvent.completes 7 ⟨none, fun _ => none⟩ [] = 0 ∧
    program_exit ["prog"] RunEvent.interrupted 7 ⟨none, fun _ => none⟩ [] = 0 ∧
    program_exit ["prog"] RunEvent.raised 7 ⟨none, fun _ => none⟩ [] = 1 ∧
    program_exit ["prog"] RunEvent.completes 7 ⟨none, fun _ => none⟩ [] = 1 ∧
    program_exit ["prog"] RunEvent.completes 7 ⟨some ['x'], fun _ => none⟩ [] = 1 := by
  refine ⟨(program_exit_codes _ _ _ _ _).1 (by decide), ?_, ?_, ?_, ?_⟩
  · exact (program_exit_codes _ _ _ _ _).2.1 rfl (by decide)
  · exact (program_exit_codes _ _ _ _ _).2.2.1 rfl (by decide)
  · exact (program_exit_codes _ _ _ _ _).2.2.2.1 rfl (by decide) rfl
  · exact (program_exit_codes _ _ _ _ _).2.2.2.2.1 rfl (by decide) (by simp) (by decide)

/-- C8: any key produced by the Selenium path or by the manual loop passes
`validate_api_key`, so the defensive re-validation in `main` succeeds and
its fatal exit-1 branch is not taken for such keys. -/
theorem extraction_keys_valid (texts inputs : List (List Char)) (k : List Char)
    (t : Nat) (s : FsState) (c : List Char) :
    (selenium_result texts = some k → validate_api_key k = (true, "Valid")) ∧
    (manual_result inputs = some k → validate_api_key k = (true, "Valid")) ∧
    (s.envFile = some c → (validate_api_key k).1 = true →
      main_outcome t s k = MainOutcome.ok) := by
  refine ⟨?_, ?_, ?_⟩
  · intro h
    have hacc : seleniumAccepts k = true := List.find?_some h
    simp only [seleniumAccepts, Bool.and_eq_true, decide_eq_true_eq, beq_iff_eq] at hacc
    exact validate_of_shape hacc.1.1 hacc.2 (by omega)
  · intro h
    have hv : (validate_api_key k).1 = true := by simpa using List.find?_some h
    exact validate_true_eq hv
  · intro hc hv
    simp [main_outcome, create_backup, hc, hv]

/-- Witness for C8: the 125-character demonstration key is found by both
paths and the final re-validation branch accepts it. -/
theorem extraction_keys_valid_witness :
    validate_api_key demoKey = (true, "Valid") ∧
    main_outcome 7 ⟨some ['x'], fun _ => none⟩ demoKey = MainOutcome.ok := by
  have h := extraction_keys_valid [demoKey] [demoKey] demoKey 7
    ⟨some ['x'], fun _ => none⟩ ['x']
  exact ⟨h.1 (by decide), h.2.2 rfl (by decide)⟩

/-- Pointwise-fixed maps are the identity. -/
theorem map_id_of_mem {α : Type} (f : α → α) :
    ∀ l : List α, (∀ a ∈ l, f a = a) → l.map f = l := by
  intro l
  induction l with
  | nil => intro _; rfl
  | cons x xs ih =>
    intro h
    rw [List.map_cons, h x (List.mem_cons_self x xs),
      ih (fun a ha => h a (List.mem_cons_of_mem x ha))]

/-- The scan's output, split into lines, is the line-wise scan (for a
newline-free key, so that the replacement cannot split a line). -/
theorem linesOf_subAux {key : List Char} (hk : '\n' ∉ key) (content : List Char) :
    linesOf (subAux (ANON_REPL key) false content) =
      (linesOf content).map (subAux (ANON_REPL key) false) := by
  have hrnl : '\n' ∉ ANON_REPL key := anon_repl_nl_free hk
  rw [subAux_lines]
  have hPne : (linesOf content).map (subAux (ANON_REPL key) false) ≠ [] := fun he =>
    splitOnChar_ne_nil '\n' content (List.map_eq_nil_iff.mp he)
  have hPnl : ∀ p ∈ (linesOf content).map (subAux (ANON_REPL key) false), '\n' ∉ p := by
    intro p hp
    obtain ⟨q, hq, rfl⟩ := List.mem_map.mp hp
    exact subAux_nl_free _ hrnl (not_mem_of_mem_splitOnChar '\n' content q hq)
  exact splitOnChar_joinWith '\n' _ hPne hPnl

/-- Right-stripping cannot introduce a pattern occurrence. -/
theorem searchKey_rstrip_false {content : List Char} (hc : searchKey content = false) :
    searchKey (rstrip content) = false := by
  obtain ⟨z, hz⟩ := rstrip_append_eq content
  cases hrs : searchKey (rstrip content) with
  | false => rfl
  | true =>
    have h := searchKey_append_left hrs z
    rw [← hz, hc] at h
    exact absurd h (by simp)

/-- Lines of the append-branch output: the stripped prior lines, then the
new assignment line, then the empty line after the final newline. -/
theorem linesOf_append_branch {key : List Char} (hk : '\n' ∉ key) (content : List Char) :
    linesOf (rstrip content ++ '\n' :: (ANON_REPL key ++ ['\n'])) =
      linesOf (rstrip content) ++ ([ANON_REPL key] ++ [[]]) := by
  have hrnl : '\n' ∉ ANON_REPL key := anon_repl_nl_free hk
  show splitOnChar '\n' _ = _
  rw [splitOnChar_append '\n' (rstrip content) (ANON_REPL key ++ ['\n'])]
  congr 1
  rw [show ANON_REPL key ++ ['\n'] = ANON_REPL key ++ '\n' :: [] from rfl,
    splitOnChar_append '\n' (ANON_REPL key) [], splitOnChar_of_not_mem hrnl]
  rfl

/-- C5: on a file content none of whose lines contains the target-variable
pattern, `update_env_file` appends exactly the assignment line
`NEXT_PUBLIC_SUPABASE_ANON_KEY="<new key>"` followed by a final newline,
after right-stripping trailing whitespace from the prior content, which is
otherwise unchanged.  (The pattern literal contains no newline, so
"no line matches" and "the content has no match" coincide.) -/
theorem update_append_line (key content : List Char)
    (h : ∀ p ∈ linesOf content, searchKey p = false) :
    update_env_file key content =
      rstrip content ++ '\n' :: (ANON_REPL key ++ ['\n']) := by
  have hs : searchKey content = false := by
    rw [searchKey_lines]
    exact List.any_eq_false.mpr (fun p hp => by simp [h p hp])
  rw [update_env_file, if_neg (by simp [hs])]

/-- Append-branch demonstration content: one plain line, trailing blanks. -/
def plainContent : List Char := ("A_VAR=1\n  ").data

/-- Witness for C5 at a concrete pattern-free content. -/
theorem update_append_line_witness :
    update_env_file ['k'] plainContent =
      rstrip plainContent ++ '\n' :: (ANON_REPL ['k'] ++ ['\n']) :=
  update_append_line ['k'] plainContent (by decide)

/-- Content whose first line assigns the target variable and whose second
line contains the pattern only mid-line (it assigns `FOO`). -/
def midlineContent : List Char :=
  KEYEQ ++ ("old").data ++ '\n' :: (("FOO=").data ++ KEYEQ ++ ("bar").data)

/-- C3 counterexample: the first line assigns the target variable, yet the
second line — which does not assign it — is not left byte-identical:
`re.sub` also rewrites the mid-line match inside `FOO=...`. -/
theorem update_midline_not_preserved_cex :
    (∃ p ∈ linesOf midlineContent, assigns p = true) ∧
    (linesOf (update_env_file ['k'] midlineContent))[1]? ≠
      (linesOf midlineContent)[1]? := by
  decide

/-- C3 corrected: on a content with an assigning line (and a backslash-free
key; Python expands replacement-template escapes for backslashes), the
update is the line-wise scan: every line keeps its part before the first
pattern occurrence and the rest of the line becomes
`NEXT_PUBLIC_SUPABASE_ANON_KEY="<key>"`; an assigning line becomes exactly
that quoted assignment, and every line with no occurrence anywhere in it is
byte-identical. -/
theorem update_replace_lines (key content : List Char)
    (hb : ('\\' : Char) ∉ key)
    (h : ∃ p ∈ linesOf content, assigns p = true) :
    update_env_file key content =
      joinWith '\n' ((linesOf content).map (subAux (ANON_REPL key) false)) ∧
    (∀ p ∈ linesOf content, searchKey p = false →
      subAux (ANON_REPL key) false p = p) ∧
    (∀ p ∈ linesOf content, assigns p = true →
      subAux (ANON_REPL key) false p = ANON_REPL key) := by
  obtain ⟨p0, hp0, ha0⟩ := h
  have hs : searchKey content = true :=
    searchKey_of_mem_line hp0 (searchKey_of_assigns ha0)
  refine ⟨?_, ?_, ?_⟩
  · rw [update_env_file, if_pos (by simp [hs])]
    exact subAux_lines _ content
  · intro p _ hps
    exact subAux_id_of_not_search _ hps
  · intro p hp hap
    have hnp : '\n' ∉ p := not_mem_of_mem_splitOnChar '\n' content p hp
    obtain ⟨t, rfl⟩ := (pfxIff KEYEQ p).mp hap
    have hnt : '\n' ∉ t := fun hm => hnp (List.mem_append_right KEYEQ hm)
    rw [subAux_keyeq_append, subAux_skip_nl_free _ hnt]
    simp

/-- Single-line content assigning the target variable. -/
def oneAssignContent : List Char := KEYEQ ++ ("old").data

/-- Witness for the amended C3 at a one-line assigning content. -/
theorem update_replace_lines_witness :
    update_env_file ['k'] oneAssignContent =
      joinWith '\n' ((linesOf oneAssignContent).map (subAux (ANON_REPL ['k']) false)) ∧
    (∀ p ∈ linesOf oneAssignContent, searchKey p = false →
      subAux (ANON_REPL ['k']) false p = p) ∧
    (∀ p ∈ linesOf oneAssignContent, assigns p = true →
      subAux (ANON_REPL ['k']) false p = ANON_REPL ['k']) :=
  update_replace_lines ['k'] oneAssignContent (by decide)
    ⟨oneAssignContent, by decide, by decide⟩

/-- Content with two lines assigning the target variable. -/
def twoAssignContent : List Char := KEYEQ ++ 'a' :: '\n' :: (KEYEQ ++ ['b'])

/-- C4 counterexample: a file with two assignment lines still has two after
the update — `re.sub` replaces every match — so "the resulting file content
contains at most one line that assigns the target variable" fails. -/
theorem update_two_assignments_cex :
    ¬ ((linesOf (update_env_file ['k'] twoAssignContent)).countP assigns ≤ 1) := by
  decide

/-- C4 corrected: if at most one input line contains the pattern (and the
key has no newline and no backslash), then after the update at most one
line assigns the target variable; in the replace branch the output lines
are the line-wise scan of the input lines and every line with no pattern
occurrence is preserved unchanged (in the append branch the prior content
is right-stripped before the single assignment line is added). -/
theorem update_at_most_one_assign (key content : List Char)
    (hb : ('\\' : Char) ∉ key) (hk : ('\n' : Char) ∉ key)
    (h1 : (linesOf content).countP searchKey ≤ 1) :
    (linesOf (update_env_file key content)).countP assigns ≤ 1 ∧
    (searchKey content = true →
      linesOf (update_env_file key content) =
        (linesOf content).map (subAux (ANON_REPL key) false) ∧
      ∀ p ∈ linesOf content, searchKey p = false →
        subAux (ANON_REPL key) false p = p) := by
  have hsr : searchKey (ANON_REPL key) = true := searchKey_anon_repl key
  cases hc : searchKey content with
  | true =>
    have hupd : update_env_file key content = subAux (ANON_REPL key) false content := by
      rw [update_env_file, if_pos (by simp [hc])]
    have hlines : linesOf (update_env_file key content) =
        (linesOf content).map (subAux (ANON_REPL key) false) := by
      rw [hupd, linesOf_subAux hk content]
    constructor
    · rw [hlines]
      have hcount : ((linesOf content).map (subAux (ANON_REPL key) false)).countP assigns
          ≤ ((linesOf content).map (subAux (ANON_REPL key) false)).countP searchKey :=
        List.countP_mono_left (fun p _ hap => by
          simpa using searchKey_of_assigns (by simpa using hap))
      have hmap : ((linesOf content).map (subAux (ANON_REPL key) false)).countP searchKey
          = (linesOf content).countP searchKey := by
        rw [List.countP_map]
        refine List.countP_congr (fun p _ => ?_)
        show searchKey (subAux (ANON_REPL key) false p) = true ↔ searchKey p = true
        rw [searchKey_subAux_eq _ hsr p]
      omega
    · intro _
      exact ⟨hlines, fun p _ hps => subAux_id_of_not_search _ hps⟩
  | false =>
    have hupd : update_env_file key content =
        rstrip content ++ '\n' :: (ANON_REPL key ++ ['\n']) := by
      rw [update_env_file, if_neg (by simp [hc])]
    have hsrstrip : searchKey (rstrip content) = false := searchKey_rstrip_false hc
    have hlines2 : linesOf (update_env_file key content) =
        linesOf (rstrip content) ++ ([ANON_REPL key] ++ [[]]) := by
      rw [hupd, linesOf_append_branch hk content]
    constructor
    · rw [hlines2, List.countP_append]
      have h0 : (linesOf (rstrip content)).countP assigns = 0 := by
        rw [List.countP_eq_zero]
        intro p hp hap
        exact absurd (searchKey_of_mem_line hp (searchKey_of_assigns (by simpa using hap)))
          (by simp [hsrstrip])
      have ha1 : assigns (ANON_REPL key) = true := by
        rw [assigns, anon_repl_shape]
        exact pfxSelfAppend KEYEQ _
      have h2 : ([ANON_REPL key] ++ [([] : List Char)]).countP assigns = 1 := by
        rw [show ([ANON_REPL key] ++ [([] : List Char)]) = [ANON_REPL key, []] from rfl,
          List.countP_cons, List.countP_cons, List.countP_nil]
        simp [ha1, (by decide : assigns ([] : List Char) = false)]
      omega
    · intro habs
      exact absurd habs (by simp [hc])

/-- Witness for the amended C4 at a one-line assigning content. -/
theorem update_at_most_one_assign_witness :
    (linesOf (update_env_file ['k'] oneAssignContent)).countP assigns ≤ 1 ∧
    (searchKey oneAssignContent = true →
      linesOf (update_env_file ['k'] oneAssignContent) =
        (linesOf oneAssignContent).map (subAux (ANON_REPL ['k']) false) ∧
      ∀ p ∈ linesOf oneAssignContent, searchKey p = false →
        subAux (ANON_REPL ['k']) false p = p) :=
  update_at_most_one_assign ['k'] oneAssignContent (by decide) (by decide) (by decide)

/-- A backslash-free key containing a newline. -/
def nlKey : List Char := ['A', '\n', 'B']

/-- C9 counterexample: the backslash-free key `"A\nB"` is not idempotent —
on the second run `.*` stops at the embedded newline, so the assignment
line written by the first run is rewritten into something longer. -/
theorem update_not_idempotent_cex :
    ('\\' : Char) ∉ nlKey ∧
    update_env_file nlKey (update_env_file nlKey []) ≠ update_env_file nlKey [] := by
  decide

/-- C9 corrected: for every key containing neither a backslash nor a
newline, `update_env_file` is idempotent. -/
theorem update_idempotent (key content : List Char)
    (hb : ('\\' : Char) ∉ key) (hk : ('\n' : Char) ∉ key) :
    update_env_file key (update_env_file key content) = update_env_file key content := by
  have hrnl : '\n' ∉ ANON_REPL key := anon_repl_nl_free hk
  have hsr : searchKey (ANON_REPL key) = true := searchKey_anon_repl key
  have hrepl : ∃ t0, ANON_REPL key = KEYEQ ++ t0 := ⟨_, anon_repl_shape key⟩
  cases hc : searchKey content with
  | true =>
    have hupd : update_env_file key content = subAux (ANON_REPL key) false content := by
      rw [update_env_file, if_pos (by simp [hc])]
    have h2 : searchKey (update_env_file key content) = true := by
      rw [hupd]
      exact searchKey_subAux _ hsr hc
    conv_lhs => rw [update_env_file]
    rw [if_pos (show searchKey (update_env_file key content) = true from h2), hupd]
    calc subAux (ANON_REPL key) false (subAux (ANON_REPL key) false content)
        = joinWith '\n' ((linesOf (subAux (ANON_REPL key) false content)).map
            (subAux (ANON_REPL key) false)) := subAux_lines _ _
      _ = joinWith '\n' (((linesOf content).map (subAux (ANON_REPL key) false)).map
            (subAux (ANON_REPL key) false)) := by rw [linesOf_subAux hk content]
      _ = joinWith '\n' ((linesOf content).map (subAux (ANON_REPL key) false)) := by
          rw [List.map_map]
          refine congrArg _ (List.map_congr_left (fun p hp => ?_))
          exact subAux_idem_line _ hrepl hrnl
            (not_mem_of_mem_splitOnChar '\n' content p hp)
      _ = subAux (ANON_REPL key) false content := (subAux_lines _ _).symm
  | false =>
    have hupd : update_env_file key content =
        rstrip content ++ '\n' :: (ANON_REPL key ++ ['\n']) := by
      rw [update_env_file, if_neg (by simp [hc])]
    have hsrstrip : searchKey (rstrip content) = false := searchKey_rstrip_false hc
    have h2 : searchKey (update_env_file key content) = true := by
      rw [hupd]
      refine searchKey_append_right _ ?_
      have h3 : searchKey (ANON_REPL key ++ ['\n']) = true := searchKey_append_left hsr _
      show searchKey ('\n' :: (ANON_REPL key ++ ['\n'])) = true
      rw [searchKey_cons, h3, Bool.or_true]
    conv_lhs => rw [update_env_file]
    rw [if_pos (show searchKey (update_env_file key content) = true from h2), hupd]
    have hidlines : (linesOf (rstrip content)).map (subAux (ANON_REPL key) false) =
        linesOf (rstrip content) := by
      refine map_id_of_mem _ _ (fun p hp => ?_)
      refine subAux_id_of_not_search _ ?_
      cases hps : searchKey p with
      | false => rfl
      | true => exact absurd (searchKey_of_mem_line hp hps) (by simp [hsrstrip])
    calc subAux (ANON_REPL key) false
          (rstrip content ++ '\n' :: (ANON_REPL key ++ ['\n']))
        = joinWith '\n'
            ((linesOf (rstrip content ++ '\n' :: (ANON_REPL key ++ ['\n']))).map
              (subAux (ANON_REPL key) false)) := subAux_lines _ _
      _ = joinWith '\n' ((linesOf (rstrip content)).map (subAux (ANON_REPL key) false)
            ++ ([subAux (ANON_REPL key) false (ANON_REPL key)]
              ++ [subAux (ANON_REPL key) false []])) := by
          rw [linesOf_append_branch hk content]
          simp [List.map_append]
      _ = joinWith '\n' (linesOf (rstrip content) ++ ([ANON_REPL key] ++ [[]])) := by
          rw [hidlines, subAux_anon_repl_self hk]
          rfl
      _ = joinWith '\n'
            (linesOf (rstrip content ++ '\n' :: (ANON_REPL key ++ ['\n']))) := by
          rw [linesOf_append_branch hk content]
      _ = rstrip content ++ '\n' :: (ANON_REPL key ++ ['\n']) :=
          joinWith_splitOnChar '\n' _

/-- Witness for the amended C9 at a concrete key and content. -/
theorem update_idempotent_witness :
    update_env_file ['k'] (update_env_file ['k'] oneAssignContent) =
      update_env_file ['k'] oneAssignContent :=
  update_idempotent ['k'] oneAssignContent (by decide) (by decide)

end ExtractKey
